import Mathlib

/-!
Verification of the build-graph determinism verifier
(`scripts/ninja_determinism_test.py`).

The script is embedded shallowly:

* Byte strings (`bytes` objects of the source) are lists of naturals; the
  decoded path strings of the source are identified with their byte
  sequences (all literals involved are ASCII, where the identification is
  exact).
* The filesystem the script reads is an explicit association list from
  paths to raw contents; a failed `open` is the `missingFile` error.
* `sys.exit` calls and uncaught exceptions become `Except` errors; the
  md5 digest is modelled by the exact byte stream fed to the hasher
  (md5 is a function of that stream alone).
* The unbounded recursion of the source is embedded with an explicit
  fuel argument; the modelling artefact of running out of fuel is the
  distinguished error `outOfFuel`, so "the source terminates here" is
  rendered as "for all sufficiently large fuel the result is not
  `outOfFuel`", and "the source diverges here" as "for every fuel the
  result is `outOfFuel`".
-/


/-- Byte strings of the source: lists of byte values. -/
abbrev Bytes := List Nat

/-- Transcription of an ASCII string literal of the source into its bytes. -/
def bytes (s : String) : Bytes := s.toList.map Char.toNat

/-- Errors of one run of the script: `outOfFuel` is the fuel-model artefact
standing for nontermination; `missingFile` is a failed `open`;
`unsupportedDirective` is the `sys.exit` in `get_path_from_directive` for a
path containing a `$`. -/
inductive NinjaError : Type
  | outOfFuel : NinjaError
  | missingFile : Bytes → NinjaError
  | unsupportedDirective : Bytes → NinjaError
deriving DecidableEq

/-- The filesystem visible to the script: paths associated to raw contents. -/
abbrev FS := List (Bytes × Bytes)

/-- Look a path up in the filesystem, as `open(path, mode_rb)` does. -/
def fsFind : FS → Bytes → Option Bytes
  | [], _ => none
  | (p, c) :: rest, q => if p = q then some c else fsFind rest q

/-- Decidable boolean test that `pre` is a leading segment of `l`
(`startswith` of the source). -/
def isPre : Bytes → Bytes → Bool
  | [], _ => true
  | _ :: _, [] => false
  | a :: as, b :: bs => if a = b then isPre as bs else false

/-- Slice from the current position to the next newline or the end of the
content: `contents[i:j]` with `j = contents.find(newline, i)` in
`get_path_from_directive`. -/
def takeLine : Bytes → Bytes
  | [] => []
  | b :: rest => if b = 10 then [] else b :: takeLine rest

/-- Strip one trailing carriage return, byte 13
(`path_bytes.removesuffix` in the source). -/
def stripCR (l : Bytes) : Bytes := if l.getLast? = some 13 then l.dropLast else l

/-- Embedding of `get_path_from_directive(i)` of the source applied to the
suffix `contents[i:]`: the path runs to the next newline or the end, one
trailing carriage return is stripped, and a path containing a `$` (byte 36)
aborts the run (`sys.exit`). -/
def get_path_from_directive (rest : Bytes) : Except NinjaError Bytes :=
  let path := stripCR (takeLine rest)
  if 36 ∈ path then .error (.unsupportedDirective path) else .ok path

/-- Bytes of the directive keyword `include` followed by a space. -/
def includeKw : Bytes := bytes "include "

/-- Bytes of the directive keyword `subninja` followed by a space. -/
def subninjaKw : Bytes := bytes "subninja "

/-- Embedding of the `SUBNINJA_OR_INCLUDE_REGEX.finditer(contents)` loop of
`find_subninjas_and_includes`: the regex matches byte 10 followed by either
keyword and a space; on each match the path is extracted from the match end
and the scan resumes at the match end. -/
def scanAfterNewlines (contents : Bytes) : Except NinjaError (List Bytes) :=
  match contents with
  | [] => .ok []
  | b :: rest =>
    if b = 10 then
      if isPre includeKw rest then
        match get_path_from_directive (rest.drop 8) with
        | .error e => .error e
        | .ok p =>
          match scanAfterNewlines (rest.drop 8) with
          | .error e => .error e
          | .ok ps => .ok (p :: ps)
      else if isPre subninjaKw rest then
        match get_path_from_directive (rest.drop 9) with
        | .error e => .error e
        | .ok p =>
          match scanAfterNewlines (rest.drop 9) with
          | .error e => .error e
          | .ok ps => .ok (p :: ps)
      else scanAfterNewlines rest
    else scanAfterNewlines rest
termination_by contents.length
decreasing_by
  all_goals simp [List.length_drop]
  all_goals omega

/-- Embedding of `find_subninjas_and_includes`: a directive at the very start
of the content is handled by the `startswith` branches (with `include `
checked before `subninja `), then the regex scan contributes the directives
that follow a newline, in order of occurrence. -/
def find_subninjas_and_includes (contents : Bytes) : Except NinjaError (List Bytes) :=
  if isPre includeKw contents then
    match get_path_from_directive (contents.drop 8) with
    | .error e => .error e
    | .ok p =>
      match scanAfterNewlines contents with
      | .error e => .error e
      | .ok ps => .ok (p :: ps)
  else if isPre subninjaKw contents then
    match get_path_from_directive (contents.drop 9) with
    | .error e => .error e
    | .ok p =>
      match scanAfterNewlines contents with
      | .error e => .error e
      | .ok ps => .ok (p :: ps)
  else scanAfterNewlines contents

/-- Strip a leading segment when present: `s.removeprefix(pre)` of the
source (used with argument `out/`). -/
def removePre (pre l : Bytes) : Bytes := if isPre pre l then l.drop pre.length else l

/-- Embedding of `os.path.join(a, b)` for the paths the script builds: an
absolute second component replaces the first; otherwise the two components
are joined, inserting one slash (byte 47) unless the first component is
empty or already ends with a slash. -/
def path_join (a b : Bytes) : Bytes :=
  if b.head? = some 47 then b
  else if a = [] then b
  else if a.getLast? = some 47 then a ++ b
  else a ++ 47 :: b

/-- Re-rooting applied to every referenced path in both walks:
`os.path.join(out_dir, sub_file.removeprefix(out_slash))`. -/
def reroot (out_dir sub_file : Bytes) : Bytes :=
  path_join out_dir (removePre (bytes "out/") sub_file)

/-- The `for sub_file in sub_files` loop of
`transitively_included_ninja_files`, lambda-lifted: `step` is the recursive
call applied to each re-rooted referenced path that is not yet in the
shared registry; the recursive manifest is appended to the results. -/
def resolveSubFiles (step : Bytes → List Bytes → Except NinjaError (List Bytes × List Bytes))
    (out_dir : Bytes) : List Bytes → List Bytes → List Bytes →
    Except NinjaError (List Bytes × List Bytes)
  | [], results, seen => .ok (results, seen)
  | sub_file :: rest, results, seen =>
    let sub := reroot out_dir sub_file
    if sub ∈ seen then resolveSubFiles step out_dir rest results seen
    else
      match step sub seen with
      | .error e => .error e
      | .ok (rs, seen') => resolveSubFiles step out_dir rest (results ++ rs) seen'

/-- Embedding of `transitively_included_ninja_files(out_dir, ninja_file,
seen)` parameterized by the directive scanner `scan`: read the file, return
it first, mark it in the shared `seen` registry, scan its directives and
recurse depth-first into each unseen re-rooted referenced path.  The python
dict `seen` is the list of marked paths (membership only is used); it is
threaded through the whole walk and returned next to the manifest.  `fuel`
bounds the recursion depth. -/
def tiWith (scan : Bytes → Except NinjaError (List Bytes)) (fs : FS) (out_dir : Bytes) :
    Nat → Bytes → List Bytes → Except NinjaError (List Bytes × List Bytes)
  | 0, _, _ => .error .outOfFuel
  | fuel + 1, ninja_file, seen =>
    match fsFind fs ninja_file with
    | none => .error (.missingFile ninja_file)
    | some contents =>
      match scan contents with
      | .error e => .error e
      | .ok sub_files =>
        resolveSubFiles (fun f sn => tiWith scan fs out_dir fuel f sn) out_dir
          sub_files [ninja_file] (ninja_file :: seen)

/-- The embedding of `transitively_included_ninja_files` of the source: the
walk with the source's directive scanner. -/
def transitively_included_ninja_files (fs : FS) (out_dir : Bytes) (fuel : Nat)
    (ninja_file : Bytes) (seen : List Bytes) :
    Except NinjaError (List Bytes × List Bytes) :=
  tiWith find_subninjas_and_includes fs out_dir fuel ninja_file seen

/-- The `for sub_file in sub_files` loop of `hash_ninja_file`,
lambda-lifted: `step` is the recursive call applied to every re-rooted
referenced path (no registry is consulted). -/
def hashSubFiles (step : Bytes → Bytes → Except NinjaError Bytes) (out_dir : Bytes) :
    List Bytes → Bytes → Except NinjaError Bytes
  | [], hasher => .ok hasher
  | sub_file :: rest, hasher =>
    match step (reroot out_dir sub_file) hasher with
    | .error e => .error e
    | .ok h => hashSubFiles step out_dir rest h

/-- Embedding of `hash_ninja_file(out_dir, ninja_file, hasher)` parameterized
by the directive scanner `scan`: read the file, scan its directives, feed
the file bytes to the hasher, then recurse into every re-rooted referenced
path — no `seen` registry, so every traversal edge is followed.  The hasher
state is the byte stream fed so far; `fuel` bounds the recursion depth. -/
def hashWith (scan : Bytes → Except NinjaError (List Bytes)) (fs : FS) (out_dir : Bytes) :
    Nat → Bytes → Bytes → Except NinjaError Bytes
  | 0, _, _ => .error .outOfFuel
  | fuel + 1, ninja_file, hasher =>
    match fsFind fs ninja_file with
    | none => .error (.missingFile ninja_file)
    | some contents =>
      match scan contents with
      | .error e => .error e
      | .ok sub_files =>
        hashSubFiles (fun f h => hashWith scan fs out_dir fuel f h) out_dir
          sub_files (hasher ++ contents)

/-- The embedding of `hash_ninja_file` of the source: the walk with the
source's directive scanner. -/
def hash_ninja_file (fs : FS) (out_dir : Bytes) (fuel : Nat) (ninja_file : Bytes)
    (hasher : Bytes) : Except NinjaError Bytes :=
  hashWith find_subninjas_and_includes fs out_dir fuel ninja_file hasher


/-- The loop of `hash_files`: fold the files into one hasher state. -/
def hashFilesGo (fs : FS) (files : List Bytes) (hasher : Bytes) :
    Except NinjaError Bytes :=
  match files with
  | [] => .ok hasher
  | f :: rest =>
    match fsFind fs f with
    | none => .error (.missingFile f)
    | some contents => hashFilesGo fs rest (hasher ++ contents)

/-- Embedding of `hash_files(files)`: one md5 hasher updated with every
file's bytes in list order.  The digest is modelled by the byte stream fed
to the hasher (md5 depends on exactly that stream). -/
def hash_files (fs : FS) (files : List Bytes) : Except NinjaError Bytes :=
  hashFilesGo fs files []

/-- Remainder of the content after its first newline, when there is one. -/
def dropLine : Bytes → Option Bytes
  | [] => none
  | b :: rest => if b = 10 then some rest else dropLine rest

/-- Spec-side view of the content as its lines: the segments separated by
newlines, so that a line begins at the very start of the content or
immediately after a newline and runs to the next newline or the end. -/
def splitLines : Bytes → List Bytes
  | [] => [[]]
  | b :: rest =>
    if b = 10 then [] :: splitLines rest
    else
      match splitLines rest with
      | [] => [[b]]
      | l :: ls => (b :: l) :: ls

/-- Lines of the content after its first line. -/
def splitTail (s : Bytes) : List Bytes :=
  match dropLine s with
  | none => []
  | some r => splitLines r

/-- Spec-side Directive Scanner for one line, following the claim wording: a
line beginning with the keyword `include ` or `subninja ` references the
path running from just after the keyword to the end of the line, with one
trailing carriage return stripped. -/
def lineDirective (line : Bytes) : Option Bytes :=
  if isPre includeKw line then some (stripCR (line.drop 8))
  else if isPre subninjaKw line then some (stripCR (line.drop 9))
  else none

/-- Spec-side Directive Scanner, following the claim wording: the referenced
paths of the directive lines of the content, in order of occurrence. -/
def directivePathsSpec (contents : Bytes) : List Bytes :=
  (splitLines contents).filterMap lineDirective

/-- Outcome of a directive scan over the listed referenced paths: the first
path containing a `$` (byte 36) aborts the scan, otherwise all paths are
returned.  Characterization device for `find_subninjas_and_includes`. -/
def pathsOrFirstBad (ps : List Bytes) : Except NinjaError (List Bytes) :=
  match ps.find? (fun p => decide (36 ∈ p)) with
  | some q => .error (.unsupportedDirective q)
  | none => .ok ps

deriving instance DecidableEq for Except

/-- Executable form of the Directive Scanner outcome, by
`find_subninjas_char`; used to evaluate the (well-founded-recursive)
scanner on concrete inputs. -/
def scanOutcome (contents : Bytes) : Except NinjaError (List Bytes) :=
  pathsOrFirstBad (directivePathsSpec contents)

/-- Executable form of the Transitive Resolver, used to evaluate it on
concrete inputs. -/
def tiEval : FS → Bytes → Nat → Bytes → List Bytes →
    Except NinjaError (List Bytes × List Bytes) :=
  tiWith scanOutcome

/-- Executable form of the Determinism Hasher walk, used to evaluate it on
concrete inputs. -/
def hashEval : FS → Bytes → Nat → Bytes → Bytes → Except NinjaError Bytes :=
  hashWith scanOutcome

/-- Spec-side digest input for a list of files: the concatenation of the
files' byte contents in list order (failing at the first missing file, as
the fold does). -/
def concatManifest (fs : FS) : List Bytes → Except NinjaError Bytes
  | [] => .ok []
  | f :: rest =>
    match fsFind fs f with
    | none => .error (.missingFile f)
    | some contents =>
      match concatManifest fs rest with
      | .error e => .error e
      | .ok s => .ok (contents ++ s)

/-- Character class of the leading character of a regex identifier group
`[a-zA-Z_]`. -/
def isIdentStart (c : Nat) : Bool :=
  decide ((65 ≤ c ∧ c ≤ 90) ∨ (97 ≤ c ∧ c ≤ 122) ∨ c = 95)

/-- Character class of the later characters of a regex identifier group
`[a-zA-Z0-9_]`. -/
def isIdentChar (c : Nat) : Bool := isIdentStart c || decide (48 ≤ c ∧ c ≤ 57)

/-- Language of the regex group `[a-zA-Z_][a-zA-Z0-9_]*`. -/
def identLang (w : Bytes) : Bool :=
  match w with
  | [] => false
  | c :: cs => isIdentStart c && cs.all isIdentChar

/-- Language of the regex alternation `user|userdebug|eng`. -/
def variantLang (w : Bytes) : Bool :=
  decide (w = bytes "user" ∨ w = bytes "userdebug" ∨ w = bytes "eng")

/-- Existence of a split of `s` whose two halves satisfy `f`. -/
def anySplit (s : Bytes) (f : Bytes → Bytes → Bool) : Bool :=
  (List.range (s.length + 1)).any fun i => f (s.take i) (s.drop i)

/-- Language of the optional suffix group of the product regex: empty, or an
optional `-` followed by an identifier, then `-` (byte 45) and a variant. -/
def optGroupLang (w : Bytes) : Bool :=
  decide (w = []) ||
    anySplit w fun m r =>
      (decide (m = []) ||
        (match m with
         | 45 :: g2 => identLang g2
         | _ => false)) &&
      (match r with
       | 45 :: v => variantLang v
       | _ => false)

/-- Language of the whole `_PRODUCT_REGEX` pattern: an identifier group
followed by the optional suffix group. -/
def patternLang (p : Bytes) : Bool :=
  anySplit p fun a b => identLang a && optGroupLang b

/-- Truthiness of `_PRODUCT_REGEX.match(s)` of the source: `re.match`
succeeds iff some leading segment of `s` is in the pattern language. -/
def product_regex_match (s : Bytes) : Bool :=
  anySplit s fun p _ => patternLang p

/-- Error raised by the validated `Product` constructor. -/
inductive ConfigError : Type
  | invalidProduct : Bytes → ConfigError
deriving DecidableEq

/-- Embedding of the `Product` dataclass: a target product, release and
build variant. -/
structure Product : Type where
  product : Bytes
  release : Bytes
  variant : Bytes
deriving DecidableEq

/-- Stringification of a `Product`: `product-release-variant` (45 is `-`). -/
def Product.str (p : Product) : Bytes :=
  p.product ++ 45 :: p.release ++ 45 :: p.variant

/-- Validated construction of a `Product`: the `__post_init__` check raises
exactly when `_PRODUCT_REGEX.match` of the stringification is falsy. -/
def mkProduct (product release variant : Bytes) : Except ConfigError Product :=
  let p : Product := ⟨product, release, variant⟩
  if product_regex_match (Product.str p) then .ok p
  else .error (.invalidProduct (Product.str p))

/-- Observable effects of one run of `main`, in program order. -/
inductive MainEvent : Type
  | runBuild : Nat → MainEvent
  | stderrLog : Bytes → MainEvent
  | exitFatal : Bytes → MainEvent
  | resolveTree : Nat → MainEvent
  | distArchive : Bytes → List Bytes → MainEvent
  | hashTree : Nat → MainEvent
  | stdoutMsg : Bytes → MainEvent
  | crash : MainEvent
deriving DecidableEq

/-- Outcome of one sandboxed build: the boolean returned by
`run_make_nothing` and the captured combined log. -/
structure BuildOutcome : Type where
  success : Bool
  log : Bytes
deriving DecidableEq

/-- Message of `sys.exit` after a failed build. -/
def buildFailedMsg : Bytes := bytes "build failed"

/-- Message of `sys.exit` after a digest mismatch. -/
def mismatchMsg : Bytes :=
  bytes "ninja files were not deterministic! See disted determinism_test_files_1/2.zip"

/-- Success message printed when the digests agree. -/
def successMsg : Bytes := bytes "Success, ninja files were deterministic"

/-- Archive name for the first tree. -/
def zipName1 : Bytes := bytes "determinism_test_files_1.zip"

/-- Archive name for the second tree. -/
def zipName2 : Bytes := bytes "determinism_test_files_2.zip"

/-- First output directory: `OUT_DIR/determinism_test_out1`. -/
def out_dir1 (outRoot : Bytes) : Bytes :=
  path_join outRoot (bytes "determinism_test_out1")

/-- Second output directory: `OUT_DIR/determinism_test_out2`. -/
def out_dir2 (outRoot : Bytes) : Bytes :=
  path_join outRoot (bytes "determinism_test_out2")

/-- Root build file of a tree: `out_dir/combined-product.ninja`. -/
def rootNinja (product out_dir : Bytes) : Bytes :=
  path_join out_dir (bytes "combined-" ++ product ++ bytes ".ninja")

/-- Embedding of `main` from the `asyncio.gather` join barrier on: both
builds have been launched concurrently and both awaited (recorded as the two
leading `runBuild` events; the continuation consumes both outcomes).  The
result is the ordered trace of observable effects together with the process
exit code (`sys.exit(msg)` exits with code 1; uncaught exceptions and the
fuel artefact are recorded as `crash` with exit 1).  `fs` is the filesystem,
`outRoot` the `OUT_DIR` value, `fuel` the walk depth bound. -/
def mainModel (fs : FS) (outRoot : Bytes) (fuel : Nat) (b1 b2 : BuildOutcome) :
    List MainEvent × Nat :=
  let pre : List MainEvent := [.runBuild 1, .runBuild 2]
  if b1.success = false then
    (pre ++ [.stderrLog b1.log, .exitFatal buildFailedMsg], 1)
  else if b2.success = false then
    (pre ++ [.stderrLog b2.log, .exitFatal buildFailedMsg], 1)
  else
    match mkProduct (bytes "aosp_cf_x86_64_phone") (bytes "trunk_staging")
        (bytes "userdebug") with
    | .error _ => (pre ++ [.crash], 1)
    | .ok product =>
      let o1 := out_dir1 outRoot
      let o2 := out_dir2 outRoot
      match transitively_included_ninja_files fs o1 fuel (rootNinja product.product o1) [] with
      | .error _ => (pre ++ [.resolveTree 1, .crash], 1)
      | .ok (files1, _) =>
        match transitively_included_ninja_files fs o2 fuel (rootNinja product.product o2) [] with
        | .error _ => (pre ++ [.resolveTree 1, .resolveTree 2, .crash], 1)
        | .ok (files2, _) =>
          let tr := pre ++ [.resolveTree 1, .resolveTree 2,
            .distArchive zipName1 files1, .distArchive zipName2 files2]
          match hash_files fs files1 with
          | .error _ => (tr ++ [.hashTree 1, .crash], 1)
          | .ok h1 =>
            match hash_files fs files2 with
            | .error _ => (tr ++ [.hashTree 1, .hashTree 2, .crash], 1)
            | .ok h2 =>
              if h1 ≠ h2 then
                (tr ++ [.hashTree 1, .hashTree 2, .exitFatal mismatchMsg], 1)
              else
                (tr ++ [.hashTree 1, .hashTree 2, .stdoutMsg successMsg], 0)

/-- Number of filesystem paths not yet in the registry: the measure that
shrinks as the resolver marks files. -/
def unseenCount (fs : FS) (seen : List Bytes) : Nat :=
  ((fs.map Prod.fst).toFinset \ seen.toFinset).card

/-- Edge of the include graph: file `a` exists, scans successfully, and one
of its re-rooted referenced paths is `b`. -/
def IncludeEdge (fs : FS) (out_dir : Bytes) (a b : Bytes) : Prop :=
  ∃ contents subs, fsFind fs a = some contents ∧
    find_subninjas_and_includes contents = .ok subs ∧
    b ∈ subs.map (reroot out_dir)

/-- A two-file directive cycle: file `o/a` includes `b` and file `o/b`
includes `a` (both re-root to each other under output directory `o`). -/
def cycleFS : FS :=
  [(bytes "o/a", bytes "include b"), (bytes "o/b", bytes "include a")]

/-- Diamond include graph under output directory `o`: the root `o/r`
includes `b` and `c`; `o/b` and `o/c` both include `d`. -/
def diamondFS : FS :=
  [(bytes "o/r", bytes "include b\ninclude c\nR"),
   (bytes "o/b", bytes "include d\nB"),
   (bytes "o/c", bytes "include d\nC"),
   (bytes "o/d", bytes "D")]

/-- Byte stream fed by the hasher walk on the diamond: pre-order, with the
contents of `o/d` fed twice (once via each parent). -/
def diamondWalkStream : Bytes :=
  bytes "include b\ninclude c\nR" ++ bytes "include d\nB" ++ bytes "D" ++
    bytes "include d\nC" ++ bytes "D"

/-- Byte stream the program feeds to its digest on the diamond: the
concatenation of the deduplicated manifest, with the contents of `o/d` fed
once. -/
def diamondMainStream : Bytes :=
  bytes "include b\ninclude c\nR" ++ bytes "include d\nB" ++ bytes "D" ++
    bytes "include d\nC"

/-- Digest input the program computes for one tree in `main`: the resolved
manifest is fed to `hash_files` (lines 192 and 198 of the source). -/
def programDigest (fs : FS) (out_dir : Bytes) (fuel : Nat) (root : Bytes) :
    Except NinjaError Bytes :=
  match transitively_included_ninja_files fs out_dir fuel root [] with
  | .error e => .error e
  | .ok (files, _) => hash_files fs files

/-- Acyclic one-file filesystem used to witness hasher termination. -/
def singleFS : FS := [(bytes "o/a", bytes "x")]

/-- Decidable test that `needle` occurs contiguously inside `hay`. -/
def containsSeg (needle hay : Bytes) : Bool :=
  (List.range (hay.length + 1)).any fun i => isPre needle (hay.drop i)

/-- Two trees whose root build files differ by one byte, under `OUT_DIR`
value `o`: the mismatch fixture for the orchestrator. -/
def mismatchFS : FS :=
  [(rootNinja (bytes "aosp_cf_x86_64_phone") (out_dir1 (bytes "o")), bytes "X"),
   (rootNinja (bytes "aosp_cf_x86_64_phone") (out_dir2 (bytes "o")), bytes "Y")]

/-- Two trees with byte-identical root build files, under `OUT_DIR` value
`o`: the match fixture for the orchestrator. -/
def matchFS : FS :=
  [(rootNinja (bytes "aosp_cf_x86_64_phone") (out_dir1 (bytes "o")), bytes "X"),
   (rootNinja (bytes "aosp_cf_x86_64_phone") (out_dir2 (bytes "o")), bytes "X")]

/-- Filesystem with one two-byte file and one empty file, used to witness
that file boundaries are invisible to the digest. -/
def boundaryFS : FS := [(bytes "f", bytes "xy"), (bytes "g", [])]

/-- Dropping the first line shortens the content. -/
theorem dropLine_length : ∀ (s r : Bytes), dropLine s = some r → r.length < s.length := by
  intro s
  induction s with
  | nil => intro r h; simp [dropLine] at h
  | cons b rest ih =>
    intro r h
    simp only [dropLine] at h
    by_cases hb : b = 10
    · simp [hb] at h
      simp [← h, List.length_cons]
    · simp [hb] at h
      have := ih r h
      simp [List.length_cons]
      omega

/-- A content splits as its first line followed by the later lines. -/
theorem splitLines_shape : ∀ (s : Bytes), splitLines s = takeLine s :: splitTail s := by
  intro s
  induction s with
  | nil => simp [splitLines, takeLine, splitTail, dropLine]
  | cons b rest ih =>
    by_cases hb : b = 10
    · subst hb
      simp [splitLines, takeLine, splitTail, dropLine]
    · simp only [splitLines, takeLine, if_neg hb, ih]
      have hd : splitTail (b :: rest) = splitTail rest := by
        simp [splitTail, dropLine, hb]
      rw [hd]

/-- A successful keyword test decomposes the string after the keyword. -/
theorem isPre_eq_append : ∀ (k s : Bytes), isPre k s = true → s = k ++ s.drop k.length := by
  intro k
  induction k with
  | nil => intro s _; simp
  | cons a as ih =>
    intro s h
    match s with
    | [] => simp [isPre] at h
    | b :: bs =>
      simp only [isPre] at h
      by_cases hab : a = b
      · subst hab
        simp only [if_pos rfl] at h
        have := ih bs h
        simpa [List.length_cons, List.drop_succ_cons] using congrArg (a :: ·) this
      · simp [hab] at h

/-- A newline-free segment passes through `takeLine`. -/
theorem takeLine_append : ∀ (k t : Bytes), (10 : Nat) ∉ k →
    takeLine (k ++ t) = k ++ takeLine t := by
  intro k
  induction k with
  | nil => intro t _; simp
  | cons a as ih =>
    intro t hk
    have ha : a ≠ 10 := by intro h; exact hk (by simp [h])
    have has : (10 : Nat) ∉ as := by intro h; exact hk (by simp [h])
    simp [takeLine, ha, ih t has]

/-- A newline-free segment passes through `dropLine`. -/
theorem dropLine_append : ∀ (k t : Bytes), (10 : Nat) ∉ k →
    dropLine (k ++ t) = dropLine t := by
  intro k
  induction k with
  | nil => intro t _; simp
  | cons a as ih =>
    intro t hk
    have ha : a ≠ 10 := by intro h; exact hk (by simp [h])
    have has : (10 : Nat) ∉ as := by intro h; exact hk (by simp [h])
    simp [dropLine, ha, ih t has]

/-- A newline-free keyword starts the content iff it starts its first line. -/
theorem isPre_takeLine : ∀ (k s : Bytes), (10 : Nat) ∉ k →
    isPre k (takeLine s) = isPre k s := by
  intro k
  induction k with
  | nil => intro s _; simp [isPre]
  | cons a as ih =>
    intro s hk
    have ha : a ≠ 10 := by intro h; exact hk (by simp [h])
    have has : (10 : Nat) ∉ as := by intro h; exact hk (by simp [h])
    match s with
    | [] => simp [takeLine]
    | b :: rest =>
      by_cases hb : b = 10
      · subst hb
        simp [takeLine, isPre, ha]
      · simp [takeLine, hb, isPre, ih rest has]

theorem includeKw_no_nl : (10 : Nat) ∉ includeKw := by decide

theorem subninjaKw_no_nl : (10 : Nat) ∉ subninjaKw := by decide

theorem includeKw_length : includeKw.length = 8 := by decide

theorem subninjaKw_length : subninjaKw.length = 9 := by decide

/-- Combining a scanned head path with the outcome of the rest of a scan. -/
theorem pathsOrFirstBad_cons (p : Bytes) (T : List Bytes) :
    (match (if (36 : Nat) ∈ p then
              (Except.error (NinjaError.unsupportedDirective p) : Except NinjaError Bytes)
            else .ok p) with
     | .error e => .error e
     | .ok q =>
       match pathsOrFirstBad T with
       | .error e => .error e
       | .ok ps => .ok (q :: ps)) = pathsOrFirstBad (p :: T) := by
  by_cases h36 : (36 : Nat) ∈ p
  · simp only [if_pos h36, pathsOrFirstBad]
    rw [List.find?_cons_of_pos _ (by simpa using h36)]
  · simp only [if_neg h36, pathsOrFirstBad]
    rw [List.find?_cons_of_neg _ (by simpa using h36)]
    cases hf : List.find? (fun p => decide ((36 : Nat) ∈ p)) T <;> simp

/-- Decomposition of the first line of a content that starts with a
newline-free keyword. -/
theorem head_keyword_split (kw s : Bytes) (hnl : (10 : Nat) ∉ kw)
    (h : isPre kw s = true) :
    takeLine s = kw ++ takeLine (s.drop kw.length) ∧
    dropLine s = dropLine (s.drop kw.length) := by
  have hs := isPre_eq_append kw s h
  constructor
  · conv_lhs => rw [hs]
    exact takeLine_append kw _ hnl
  · conv_lhs => rw [hs]
    exact dropLine_append kw _ hnl

/-- The regex scan returns exactly the directive paths of the lines after
the first newline, aborting at the first path containing a `$`. -/
theorem scanAfterNewlines_char : ∀ (n : Nat) (s : Bytes), s.length ≤ n →
    scanAfterNewlines s =
      pathsOrFirstBad ((splitTail s).filterMap lineDirective) := by
  intro n
  induction n with
  | zero =>
    intro s hs
    have hnil : s = [] := by
      cases s with
      | nil => rfl
      | cons b rest => simp at hs
    subst hnil
    simp [scanAfterNewlines, splitTail, dropLine, pathsOrFirstBad]
  | succ n ih =>
    intro s hs
    cases s with
    | nil => simp [scanAfterNewlines, splitTail, dropLine, pathsOrFirstBad]
    | cons b rest =>
      have hrest : rest.length ≤ n := by
        simp [List.length_cons] at hs
        omega
      by_cases hb : b = 10
      case neg =>
        have h1 : scanAfterNewlines (b :: rest) = scanAfterNewlines rest := by
          simp [scanAfterNewlines, hb]
        have h2 : splitTail (b :: rest) = splitTail rest := by
          simp [splitTail, dropLine, hb]
        rw [h1, h2]
        exact ih rest hrest
      case pos =>
        subst hb
        have htail : splitTail ((10 : Nat) :: rest) = splitLines rest := by
          simp [splitTail, dropLine]
        rw [htail, splitLines_shape rest]
        by_cases hinc : isPre includeKw rest
        · -- include directive after the newline
          have hsplit := head_keyword_split includeKw rest includeKw_no_nl hinc
          rw [includeKw_length] at hsplit
          have hline : lineDirective (takeLine rest) =
              some (stripCR (takeLine (rest.drop 8))) := by
            rw [lineDirective, isPre_takeLine includeKw rest includeKw_no_nl,
              if_pos hinc, hsplit.1]
            rw [← includeKw_length, List.drop_left]
          have hscan : scanAfterNewlines ((10 : Nat) :: rest) =
              match get_path_from_directive (rest.drop 8) with
              | .error e => .error e
              | .ok p =>
                match scanAfterNewlines (rest.drop 8) with
                | .error e => .error e
                | .ok ps => .ok (p :: ps) := by
            simp [scanAfterNewlines, hinc]
          have htail2 : splitTail rest = splitTail (rest.drop 8) := by
            simp [splitTail, hsplit.2]
          have hrec := ih (rest.drop 8) (le_trans (by rw [List.length_drop]; omega) hrest)
          rw [List.filterMap_cons_some hline, htail2, hscan, hrec,
            get_path_from_directive]
          exact pathsOrFirstBad_cons _ _
        · by_cases hsub : isPre subninjaKw rest
          · have hsplit := head_keyword_split subninjaKw rest subninjaKw_no_nl hsub
            rw [subninjaKw_length] at hsplit
            have hline : lineDirective (takeLine rest) =
                some (stripCR (takeLine (rest.drop 9))) := by
              rw [lineDirective, isPre_takeLine includeKw rest includeKw_no_nl,
                if_neg (by simp [hinc]), isPre_takeLine subninjaKw rest subninjaKw_no_nl,
                if_pos hsub, hsplit.1]
              rw [← subninjaKw_length, List.drop_left]
            have hscan : scanAfterNewlines ((10 : Nat) :: rest) =
                match get_path_from_directive (rest.drop 9) with
                | .error e => .error e
                | .ok p =>
                  match scanAfterNewlines (rest.drop 9) with
                  | .error e => .error e
                  | .ok ps => .ok (p :: ps) := by
              simp [scanAfterNewlines, hinc, hsub]
            have htail2 : splitTail rest = splitTail (rest.drop 9) := by
              simp [splitTail, hsplit.2]
            have hrec := ih (rest.drop 9) (le_trans (by rw [List.length_drop]; omega) hrest)
            rw [List.filterMap_cons_some hline, htail2, hscan, hrec,
              get_path_from_directive]
            exact pathsOrFirstBad_cons _ _
          · -- no directive on the line after this newline
            have hline : lineDirective (takeLine rest) = none := by
              rw [lineDirective, isPre_takeLine includeKw rest includeKw_no_nl,
                if_neg (by simp [hinc]), isPre_takeLine subninjaKw rest subninjaKw_no_nl,
                if_neg (by simp [hsub])]
            have hscan : scanAfterNewlines ((10 : Nat) :: rest) =
                scanAfterNewlines rest := by
              simp [scanAfterNewlines, hinc, hsub]
            rw [List.filterMap_cons_none hline, hscan]
            exact ih rest hrest

/-- Characterization of the Directive Scanner: it returns exactly the
spec-side directive paths, in order, aborting at the first path that
contains a `$`. -/
theorem find_subninjas_char (contents : Bytes) :
    find_subninjas_and_includes contents =
      pathsOrFirstBad (directivePathsSpec contents) := by
  have hscan := scanAfterNewlines_char contents.length contents le_rfl
  rw [directivePathsSpec, splitLines_shape]
  by_cases hinc : isPre includeKw contents
  · have hsplit := head_keyword_split includeKw contents includeKw_no_nl hinc
    rw [includeKw_length] at hsplit
    have hline : lineDirective (takeLine contents) =
        some (stripCR (takeLine (contents.drop 8))) := by
      rw [lineDirective, isPre_takeLine includeKw contents includeKw_no_nl,
        if_pos hinc, hsplit.1]
      rw [← includeKw_length, List.drop_left]
    rw [List.filterMap_cons_some hline]
    rw [find_subninjas_and_includes, if_pos hinc, hscan, get_path_from_directive]
    exact pathsOrFirstBad_cons _ _
  · by_cases hsub : isPre subninjaKw contents
    · have hsplit := head_keyword_split subninjaKw contents subninjaKw_no_nl hsub
      rw [subninjaKw_length] at hsplit
      have hline : lineDirective (takeLine contents) =
          some (stripCR (takeLine (contents.drop 9))) := by
        rw [lineDirective, isPre_takeLine includeKw contents includeKw_no_nl,
          if_neg (by simp [hinc]), isPre_takeLine subninjaKw contents subninjaKw_no_nl,
          if_pos hsub, hsplit.1]
        rw [← subninjaKw_length, List.drop_left]
      rw [List.filterMap_cons_some hline]
      rw [find_subninjas_and_includes, if_neg hinc, if_pos hsub, hscan,
        get_path_from_directive]
      exact pathsOrFirstBad_cons _ _
    · have hline : lineDirective (takeLine contents) = none := by
        rw [lineDirective, isPre_takeLine includeKw contents includeKw_no_nl,
          if_neg (by simp [hinc]), isPre_takeLine subninjaKw contents subninjaKw_no_nl,
          if_neg (by simp [hsub])]
      rw [List.filterMap_cons_none hline]
      rw [find_subninjas_and_includes, if_neg hinc, if_neg hsub]
      exact hscan

theorem find_eq_scanOutcome : find_subninjas_and_includes = scanOutcome :=
  funext fun c => find_subninjas_char c

theorem ti_eq_tiEval : @transitively_included_ninja_files = tiEval := by
  funext fs out fuel file seen
  rw [transitively_included_ninja_files, tiEval, find_eq_scanOutcome]

theorem hash_eq_hashEval : @hash_ninja_file = hashEval := by
  funext fs out fuel file hasher
  rw [hash_ninja_file, hashEval, find_eq_scanOutcome]

/-- The `hash_files` fold feeds exactly the concatenation of the remaining
files' contents after the accumulated stream. -/
theorem hashFilesGo_concat (fs : FS) : ∀ (files : List Bytes) (acc : Bytes),
    hashFilesGo fs files acc =
      match concatManifest fs files with
      | .error e => .error e
      | .ok s => .ok (acc ++ s) := by
  intro files
  induction files with
  | nil => intro acc; simp [hashFilesGo, concatManifest]
  | cons f rest ih =>
    intro acc
    rw [hashFilesGo, concatManifest]
    cases hf : fsFind fs f with
    | none => rfl
    | some contents =>
      dsimp only
      rw [ih (acc ++ contents)]
      cases hc : concatManifest fs rest with
      | error e => rfl
      | ok s => simp [List.append_assoc]

/-- The digest of `hash_files` is exactly the concatenation of the files'
contents in list order. -/
theorem hash_files_eq_concat (fs : FS) (files : List Bytes) :
    hash_files fs files = concatManifest fs files := by
  rw [hash_files, hashFilesGo_concat]
  cases hc : concatManifest fs files with
  | error e => rfl
  | ok s => simp

/-- The product regex matches iff the string begins with a letter or an
underscore: the leading identifier group decides the match, because the
whole `-release-variant` suffix group is optional. -/
theorem product_regex_match_head (s : Bytes) :
    product_regex_match s =
      match s with
      | [] => false
      | c :: _ => isIdentStart c := by
  cases s with
  | nil => decide
  | cons c t =>
    show product_regex_match (c :: t) = isIdentStart c
    by_cases hc : isIdentStart c = true
    · rw [hc]
      have hpat : patternLang [c] = true := by
        rw [patternLang, anySplit, List.any_eq_true]
        refine ⟨1, by simp, ?_⟩
        simp [identLang, hc, show optGroupLang [] = true from by decide]
      rw [product_regex_match, anySplit, List.any_eq_true]
      refine ⟨1, by simp, ?_⟩
      simpa using hpat
    · have hc' : isIdentStart c = false := by simpa using hc
      rw [hc', Bool.eq_false_iff]
      intro h
      rw [product_regex_match, anySplit, List.any_eq_true] at h
      obtain ⟨i, hi, hp⟩ := h
      rw [patternLang, anySplit, List.any_eq_true] at hp
      obtain ⟨j, hj, hab⟩ := hp
      simp only [Bool.and_eq_true] at hab
      have hid := hab.1
      rw [List.take_take] at hid
      cases hmin : min j i with
      | zero =>
        rw [hmin] at hid
        simp [identLang] at hid
      | succ m =>
        rw [hmin] at hid
        simp [List.take_succ_cons, identLang, hc'] at hid

/-- The registry returned by the loop extends the incoming registry by the
reversal of the appended results, provided each step does so. -/
theorem resolveSubFiles_seen (step : Bytes → List Bytes → Except NinjaError (List Bytes × List Bytes))
    (out_dir : Bytes)
    (hstep : ∀ f sn rs s2, step f sn = .ok (rs, s2) → s2 = rs.reverse ++ sn) :
    ∀ (subs results seen rs : List Bytes) (s2 : List Bytes),
      resolveSubFiles step out_dir subs results seen = .ok (rs, s2) →
      ∃ t, rs = results ++ t ∧ s2 = t.reverse ++ seen := by
  intro subs
  induction subs with
  | nil =>
    intro results seen rs s2 h
    rw [resolveSubFiles] at h
    simp only [Except.ok.injEq, Prod.mk.injEq] at h
    exact ⟨[], by simp [h.1], by simp [h.2]⟩
  | cons sub rest ih =>
    intro results seen rs s2 h
    rw [resolveSubFiles] at h
    by_cases hm : reroot out_dir sub ∈ seen
    · rw [if_pos hm] at h
      exact ih results seen rs s2 h
    · rw [if_neg hm] at h
      cases hres : step (reroot out_dir sub) seen with
      | error e => rw [hres] at h; simp at h
      | ok pr =>
        obtain ⟨rs1, seen1⟩ := pr
        rw [hres] at h
        obtain ⟨t2, ht2, hs2⟩ := ih (results ++ rs1) seen1 rs s2 h
        have hseen1 := hstep _ _ _ _ hres
        refine ⟨rs1 ++ t2, by simp [ht2], ?_⟩
        rw [hs2, hseen1, List.reverse_append]
        simp [List.append_assoc]

/-- The registry returned by one resolver walk is the reversal of the
returned manifest on top of the incoming registry. -/
theorem tiWith_seen (scan : Bytes → Except NinjaError (List Bytes)) (fs : FS)
    (out_dir : Bytes) :
    ∀ (fuel : Nat) (file : Bytes) (seen rs s2 : List Bytes),
      tiWith scan fs out_dir fuel file seen = .ok (rs, s2) →
      s2 = rs.reverse ++ seen := by
  intro fuel
  induction fuel with
  | zero => intro file seen rs s2 h; rw [tiWith] at h; simp at h
  | succ n ih =>
    intro file seen rs s2 h
    rw [tiWith] at h
    cases hf : fsFind fs file with
    | none => rw [hf] at h; simp at h
    | some contents =>
      rw [hf] at h
      dsimp only at h
      cases hs : scan contents with
      | error e => rw [hs] at h; simp at h
      | ok subs =>
        rw [hs] at h
        dsimp only at h
        obtain ⟨t, ht, hseen⟩ :=
          resolveSubFiles_seen _ out_dir (fun f sn rs2 ss2 hh => ih f sn rs2 ss2 hh)
            subs [file] (file :: seen) rs s2 h
        rw [hseen, ht, List.reverse_append]
        simp

/-- The loop preserves a duplicate-free registry, provided each step does
so for unregistered files. -/
theorem resolveSubFiles_nodup (step : Bytes → List Bytes → Except NinjaError (List Bytes × List Bytes))
    (out_dir : Bytes)
    (hstep : ∀ f sn rs s2, step f sn = .ok (rs, s2) → sn.Nodup → f ∉ sn → s2.Nodup) :
    ∀ (subs results seen rs : List Bytes) (s2 : List Bytes),
      resolveSubFiles step out_dir subs results seen = .ok (rs, s2) →
      seen.Nodup → s2.Nodup := by
  intro subs
  induction subs with
  | nil =>
    intro results seen rs s2 h hn
    rw [resolveSubFiles] at h
    simp only [Except.ok.injEq, Prod.mk.injEq] at h
    rw [← h.2]
    exact hn
  | cons sub rest ih =>
    intro results seen rs s2 h hn
    rw [resolveSubFiles] at h
    by_cases hm : reroot out_dir sub ∈ seen
    · rw [if_pos hm] at h
      exact ih results seen rs s2 h hn
    · rw [if_neg hm] at h
      cases hres : step (reroot out_dir sub) seen with
      | error e => rw [hres] at h; simp at h
      | ok pr =>
        obtain ⟨rs1, seen1⟩ := pr
        rw [hres] at h
        exact ih (results ++ rs1) seen1 rs s2 h (hstep _ _ _ _ hres hn hm)

/-- One resolver walk started on a duplicate-free registry not containing
the root returns a duplicate-free registry. -/
theorem tiWith_nodup (scan : Bytes → Except NinjaError (List Bytes)) (fs : FS)
    (out_dir : Bytes) :
    ∀ (fuel : Nat) (file : Bytes) (seen rs s2 : List Bytes),
      tiWith scan fs out_dir fuel file seen = .ok (rs, s2) →
      seen.Nodup → file ∉ seen → s2.Nodup := by
  intro fuel
  induction fuel with
  | zero => intro file seen rs s2 h _ _; rw [tiWith] at h; simp at h
  | succ n ih =>
    intro file seen rs s2 h hn hnotin
    rw [tiWith] at h
    cases hf : fsFind fs file with
    | none => rw [hf] at h; simp at h
    | some contents =>
      rw [hf] at h
      dsimp only at h
      cases hs : scan contents with
      | error e => rw [hs] at h; simp at h
      | ok subs =>
        rw [hs] at h
        dsimp only at h
        have hn2 : (file :: seen).Nodup := List.nodup_cons.mpr ⟨hnotin, hn⟩
        exact resolveSubFiles_nodup _ out_dir
          (fun f sn rs2 ss2 hh => ih f sn rs2 ss2 hh) subs [file] (file :: seen)
          rs s2 h hn2

/-- A successful lookup means the path is among the filesystem paths. -/
theorem fsFind_mem : ∀ (fs : FS) (p c : Bytes), fsFind fs p = some c →
    p ∈ fs.map Prod.fst := by
  intro fs
  induction fs with
  | nil => intro p c h; simp [fsFind] at h
  | cons e rest ih =>
    intro p c h
    obtain ⟨q, d⟩ := e
    rw [fsFind] at h
    by_cases hq : q = p
    · simp [hq]
    · rw [if_neg hq] at h
      simp [ih p c h]

/-- Growing the registry does not grow the measure. -/
theorem unseenCount_mono (fs : FS) (seen seen2 : List Bytes)
    (h : ∀ x, x ∈ seen → x ∈ seen2) :
    unseenCount fs seen2 ≤ unseenCount fs seen := by
  apply Finset.card_le_card
  apply Finset.sdiff_subset_sdiff (le_refl _)
  intro x hx
  rw [List.mem_toFinset] at hx
  rw [List.mem_toFinset]
  exact h x hx

/-- Marking an unseen filesystem path strictly shrinks the measure. -/
theorem unseenCount_cons (fs : FS) (seen : List Bytes) (file : Bytes)
    (hmem : file ∈ fs.map Prod.fst) (hnotin : file ∉ seen) :
    unseenCount fs (file :: seen) = unseenCount fs seen - 1 ∧
      1 ≤ unseenCount fs seen := by
  have hfile : file ∈ (fs.map Prod.fst).toFinset \ seen.toFinset := by
    rw [Finset.mem_sdiff]
    exact ⟨List.mem_toFinset.mpr hmem, fun hx => hnotin (List.mem_toFinset.mp hx)⟩
  constructor
  · rw [unseenCount, unseenCount, List.toFinset_cons, Finset.sdiff_insert,
      Finset.card_erase_of_mem hfile]
  · exact Finset.card_pos.mpr ⟨file, hfile⟩

/-- The loop never runs out of fuel when every step on a superset registry
avoids it. -/
theorem resolveSubFiles_no_fuel (step : Bytes → List Bytes → Except NinjaError (List Bytes × List Bytes))
    (out_dir : Bytes) (seen0 : List Bytes)
    (hseen : ∀ f sn rs s2, step f sn = .ok (rs, s2) → s2 = rs.reverse ++ sn)
    (hstep : ∀ f sn, (∀ x, x ∈ seen0 → x ∈ sn) → f ∉ sn →
      step f sn ≠ .error .outOfFuel) :
    ∀ (subs results seen : List Bytes), (∀ x, x ∈ seen0 → x ∈ seen) →
      resolveSubFiles step out_dir subs results seen ≠ .error .outOfFuel := by
  intro subs
  induction subs with
  | nil => intro results seen _ h; rw [resolveSubFiles] at h; simp at h
  | cons sub rest ih =>
    intro results seen hsub h
    rw [resolveSubFiles] at h
    by_cases hm : reroot out_dir sub ∈ seen
    · rw [if_pos hm] at h
      exact ih results seen hsub h
    · rw [if_neg hm] at h
      cases hres : step (reroot out_dir sub) seen with
      | error e =>
        rw [hres] at h
        dsimp only at h
        exact hstep _ _ hsub hm (hres.trans (by rw [h]))
      | ok pr =>
        obtain ⟨rs1, seen1⟩ := pr
        rw [hres] at h
        have hgrow : ∀ x, x ∈ seen0 → x ∈ seen1 := by
          intro x hx
          rw [hseen _ _ _ _ hres]
          exact List.mem_append_right _ (hsub x hx)
        exact ih (results ++ rs1) seen1 hgrow h

/-- The resolver walk does not run out of fuel when the fuel exceeds the
number of unregistered filesystem paths. -/
theorem tiWith_no_fuel (scan : Bytes → Except NinjaError (List Bytes)) (fs : FS)
    (out_dir : Bytes) (hscan : ∀ c, scan c ≠ .error .outOfFuel) :
    ∀ (fuel : Nat) (file : Bytes) (seen : List Bytes),
      file ∉ seen → unseenCount fs seen < fuel →
      tiWith scan fs out_dir fuel file seen ≠ .error .outOfFuel := by
  intro fuel
  induction fuel with
  | zero => intro file seen _ hcount; omega
  | succ n ih =>
    intro file seen hnotin hcount h
    rw [tiWith] at h
    cases hf : fsFind fs file with
    | none => rw [hf] at h; simp at h
    | some contents =>
      rw [hf] at h
      dsimp only at h
      cases hs : scan contents with
      | error e =>
        rw [hs] at h
        simp only [Except.error.injEq] at h
        rw [h] at hs
        exact hscan contents hs
      | ok subs =>
        rw [hs] at h
        dsimp only at h
        have hdec := unseenCount_cons fs seen file (fsFind_mem fs file contents hf) hnotin
        refine resolveSubFiles_no_fuel _ out_dir (file :: seen)
          (fun f sn rs s2 hh => tiWith_seen scan fs out_dir n f sn rs s2 hh)
          (fun f sn hsub hni => ih f sn hni ?_) subs [file] (file :: seen)
          (fun x hx => hx) h
        calc unseenCount fs sn ≤ unseenCount fs (file :: seen) :=
              unseenCount_mono fs (file :: seen) sn hsub
          _ < n := by omega

/-- The source scanner never reports the fuel artefact: its only error is an
unsupported directive. -/
theorem find_no_fuel_err (c : Bytes) :
    find_subninjas_and_includes c ≠ .error .outOfFuel := by
  rw [find_subninjas_char c, pathsOrFirstBad]
  cases hf : (directivePathsSpec c).find? (fun p => decide ((36 : Nat) ∈ p)) with
  | none => simp
  | some q => simp

/-- The hash loop never runs out of fuel when every step on a re-rooted
referenced path avoids it. -/
theorem hashSubFiles_no_fuel (step : Bytes → Bytes → Except NinjaError Bytes)
    (out_dir : Bytes) (good : Bytes → Prop)
    (hstep : ∀ f h, good f → step f h ≠ .error .outOfFuel) :
    ∀ (subs : List Bytes) (hasher : Bytes),
      (∀ s, s ∈ subs → good (reroot out_dir s)) →
      hashSubFiles step out_dir subs hasher ≠ .error .outOfFuel := by
  intro subs
  induction subs with
  | nil => intro hasher _ h; rw [hashSubFiles] at h; simp at h
  | cons sub rest ih =>
    intro hasher hgood h
    rw [hashSubFiles] at h
    cases hres : step (reroot out_dir sub) hasher with
    | error e =>
      rw [hres] at h
      dsimp only at h
      exact hstep _ _ (hgood sub (List.mem_cons_self sub rest)) (hres.trans h)
    | ok h2 =>
      rw [hres] at h
      exact ih h2 (fun s hsm => hgood s (List.mem_cons_of_mem sub hsm)) h

/-- The hasher walk terminates on every include graph admitting a rank
function that strictly decreases along include edges (for a finite graph
this is exactly acyclicity): with fuel above the root's rank the walk never
reports the fuel artefact. -/
theorem hash_ninja_file_no_fuel (fs : FS) (out_dir : Bytes) (rk : Bytes → Nat)
    (hrk : ∀ a b, IncludeEdge fs out_dir a b → rk b < rk a) :
    ∀ (fuel : Nat) (file : Bytes) (hasher : Bytes), rk file < fuel →
      hash_ninja_file fs out_dir fuel file hasher ≠ .error .outOfFuel := by
  intro fuel
  induction fuel with
  | zero => intro file hasher hlt; omega
  | succ n ih =>
    intro file hasher hlt h
    rw [hash_ninja_file, hashWith] at h
    cases hf : fsFind fs file with
    | none => rw [hf] at h; simp at h
    | some contents =>
      rw [hf] at h
      dsimp only at h
      cases hs : find_subninjas_and_includes contents with
      | error e =>
        rw [hs] at h
        simp only [Except.error.injEq] at h
        rw [h] at hs
        exact find_no_fuel_err contents hs
      | ok subs =>
        rw [hs] at h
        dsimp only at h
        refine hashSubFiles_no_fuel _ out_dir (fun f => rk f < n)
          (fun f h2 hg hh => ih f h2 hg (by rw [hash_ninja_file]; exact hh))
          subs (hasher ++ contents) (fun s hsm => ?_) h
        have hedge : IncludeEdge fs out_dir file (reroot out_dir s) :=
          ⟨contents, subs, hf, hs, List.mem_map_of_mem (reroot out_dir) hsm⟩
        have := hrk file (reroot out_dir s) hedge
        omega

/-- On the two-file cycle the hasher walk consumes any amount of fuel. -/
theorem cycle_aux : ∀ (fuel : Nat) (hasher : Bytes),
    hashWith scanOutcome cycleFS (bytes "o") fuel (bytes "o/a") hasher =
      .error .outOfFuel ∧
    hashWith scanOutcome cycleFS (bytes "o") fuel (bytes "o/b") hasher =
      .error .outOfFuel := by
  intro fuel
  induction fuel with
  | zero => intro hasher; exact ⟨rfl, rfl⟩
  | succ n ih =>
    intro hasher
    constructor
    · rw [hashWith]
      rw [show fsFind cycleFS (bytes "o/a") = some (bytes "include b") from by decide]
      dsimp only
      rw [show scanOutcome (bytes "include b") = .ok [bytes "b"] from by decide]
      dsimp only
      rw [hashSubFiles]
      rw [show reroot (bytes "o") (bytes "b") = bytes "o/b" from by decide]
      rw [(ih (hasher ++ bytes "include b")).2]
    · rw [hashWith]
      rw [show fsFind cycleFS (bytes "o/b") = some (bytes "include a") from by decide]
      dsimp only
      rw [show scanOutcome (bytes "include a") = .ok [bytes "a"] from by decide]
      dsimp only
      rw [hashSubFiles]
      rw [show reroot (bytes "o") (bytes "a") = bytes "o/a" from by decide]
      rw [(ih (hasher ++ bytes "include a")).1]

/-- The hasher walk on the genuine directive cycle never terminates: every
fuel is exhausted. -/
theorem hash_cycle_diverges (fuel : Nat) (hasher : Bytes) :
    hash_ninja_file cycleFS (bytes "o") fuel (bytes "o/a") hasher =
      .error .outOfFuel := by
  rw [hash_ninja_file, find_eq_scanOutcome]
  exact (cycle_aux fuel hasher).1

/-- C5: for every byte content the Directive Scanner returns exactly the
referenced paths of the directive lines — lines beginning with `include `
or `subninja ` at the very start of the content or immediately after a
newline — in order of occurrence, each path running from just after the
keyword to the next newline (or the end) with one trailing carriage return
stripped; in particular the content `include foo.ninja` followed by a
newline yields exactly the path `foo.ninja`. -/
theorem C5_scanner_paths :
    (∀ (contents : Bytes) (ps : List Bytes),
       find_subninjas_and_includes contents = .ok ps →
       ps = directivePathsSpec contents) ∧
    find_subninjas_and_includes (bytes "include foo.ninja\n") =
      .ok [bytes "foo.ninja"] := by
  constructor
  · intro contents ps h
    rw [find_subninjas_char, pathsOrFirstBad] at h
    cases hf : (directivePathsSpec contents).find? (fun p => decide ((36 : Nat) ∈ p)) with
    | some q => rw [hf] at h; simp at h
    | none =>
      rw [hf] at h
      simp only [Except.ok.injEq] at h
      exact h.symm
  · rw [find_eq_scanOutcome]; decide

theorem C5_scanner_paths_witness :
    find_subninjas_and_includes (bytes "include foo.ninja\n") =
      .ok [bytes "foo.ninja"] ∧
    [bytes "foo.ninja"] = directivePathsSpec (bytes "include foo.ninja\n") := by
  have h : find_subninjas_and_includes (bytes "include foo.ninja\n") =
      .ok [bytes "foo.ninja"] := by
    rw [find_eq_scanOutcome]; decide
  exact ⟨h, C5_scanner_paths.1 _ _ h⟩

/-- C6: whenever some directive path of the content contains a `$`
(byte 36), the scan fails fatally with an `unsupportedDirective` error
(whose path contains the `$`) rather than skipping the directive, no list of
paths is returned, and a resolver walk reaching such a file aborts with the
same error kind, returning no partial manifest. -/
theorem C6_dollar_fatal :
    ∀ (contents : Bytes),
      (∃ p, p ∈ directivePathsSpec contents ∧ (36 : Nat) ∈ p) →
      (∃ q, (36 : Nat) ∈ q ∧
        find_subninjas_and_includes contents = .error (.unsupportedDirective q)) ∧
      (∀ ps, find_subninjas_and_includes contents ≠ .ok ps) ∧
      (∀ (fs : FS) (out_dir file : Bytes) (fuel : Nat) (seen : List Bytes),
        fsFind fs file = some contents →
        ∃ q, transitively_included_ninja_files fs out_dir (fuel + 1) file seen =
          .error (.unsupportedDirective q)) := by
  intro contents hex
  have hfind : ∃ q, (36 : Nat) ∈ q ∧
      (directivePathsSpec contents).find? (fun p => decide ((36 : Nat) ∈ p)) =
        some q := by
    cases hf : (directivePathsSpec contents).find? (fun p => decide ((36 : Nat) ∈ p)) with
    | none =>
      obtain ⟨p, hp, h36⟩ := hex
      have hnone := List.find?_eq_none.mp hf p hp
      simp at hnone
      exact absurd h36 hnone
    | some q =>
      have hq := List.find?_some hf
      simp at hq
      exact ⟨q, hq, rfl⟩
  obtain ⟨q, h36q, hfq⟩ := hfind
  have herr : find_subninjas_and_includes contents =
      .error (.unsupportedDirective q) := by
    rw [find_subninjas_char, pathsOrFirstBad, hfq]
  refine ⟨⟨q, h36q, herr⟩, ?_, ?_⟩
  · intro ps hok
    rw [herr] at hok
    simp at hok
  · intro fs out_dir file fuel seen hf
    refine ⟨q, ?_⟩
    rw [transitively_included_ninja_files, tiWith, hf]
    dsimp only
    rw [herr]

theorem C6_dollar_fatal_witness :
    (∃ p, p ∈ directivePathsSpec (bytes "include a$b\n") ∧ (36 : Nat) ∈ p) ∧
    (∀ ps, find_subninjas_and_includes (bytes "include a$b\n") ≠ .ok ps) := by
  have hex : ∃ p, p ∈ directivePathsSpec (bytes "include a$b\n") ∧
      (36 : Nat) ∈ p := by decide
  exact ⟨hex, (C6_dollar_fatal _ hex).2.1⟩

/-- C10: the digest of `hash_files` is exactly the digest of the
concatenation of the files' contents in list order, so file boundaries are
invisible: any two file lists with equal concatenated contents (even across
different filesystems or file counts) produce equal digests. -/
theorem C10_hash_files_concat :
    (∀ (fs : FS) (files : List Bytes),
       hash_files fs files = concatManifest fs files) ∧
    (∀ (fs fs2 : FS) (files1 files2 : List Bytes),
       concatManifest fs files1 = concatManifest fs2 files2 →
       hash_files fs files1 = hash_files fs2 files2) := by
  refine ⟨hash_files_eq_concat, ?_⟩
  intro fs fs2 files1 files2 h
  rw [hash_files_eq_concat, hash_files_eq_concat, h]

theorem C10_hash_files_concat_witness :
    concatManifest boundaryFS [bytes "f"] =
      concatManifest boundaryFS [bytes "f", bytes "g"] ∧
    hash_files boundaryFS [bytes "f"] =
      hash_files boundaryFS [bytes "f", bytes "g"] := by
  have h : concatManifest boundaryFS [bytes "f"] =
      concatManifest boundaryFS [bytes "f", bytes "g"] := by decide
  exact ⟨h, C10_hash_files_concat.2 _ _ _ _ h⟩

/-- C2 counterexample: the triple with variant `banana` — outside the
`user`, `userdebug`, `eng` alternation — nevertheless constructs, because
`re.match` only requires a match at the start of the string and the whole
`-release-variant` suffix group of the pattern is optional. -/
theorem C2_counterexample :
    (mkProduct (bytes "aosp_cf_x86_64_phone") (bytes "trunk_staging")
      (bytes "banana")).isOk = true ∧
    variantLang (bytes "banana") = false := by
  constructor
  · rw [mkProduct]
    rw [product_regex_match_head]
    decide
  · decide

/-- C2 (amended): construction of a `Product` succeeds iff the composed
string `product-release-variant` begins with an ASCII letter or underscore
(the variant is not constrained: `re.match` accepts a prefix match and the
suffix group is optional); the valid triple constructs and stringifies to
`aosp_cf_x86_64_phone-trunk_staging-userdebug`. -/
theorem C2_product_validation :
    (∀ (product release variant : Bytes),
       (mkProduct product release variant).isOk =
         match product ++ 45 :: release ++ 45 :: variant with
         | [] => false
         | c :: _ => isIdentStart c) ∧
    mkProduct (bytes "aosp_cf_x86_64_phone") (bytes "trunk_staging")
        (bytes "userdebug") =
      .ok ⟨bytes "aosp_cf_x86_64_phone", bytes "trunk_staging",
        bytes "userdebug"⟩ ∧
    Product.str ⟨bytes "aosp_cf_x86_64_phone", bytes "trunk_staging",
        bytes "userdebug"⟩ =
      bytes "aosp_cf_x86_64_phone-trunk_staging-userdebug" := by
  refine ⟨?_, ?_, ?_⟩
  · intro product release variant
    rw [mkProduct]
    rw [product_regex_match_head]
    cases hL : product ++ 45 :: release ++ 45 :: variant with
    | nil =>
      rw [show Product.str ⟨product, release, variant⟩ =
        product ++ 45 :: release ++ 45 :: variant from rfl, hL]
      simp [Except.isOk, Except.toBool]
    | cons c t =>
      rw [show Product.str ⟨product, release, variant⟩ =
        product ++ 45 :: release ++ 45 :: variant from rfl, hL]
      cases hc : isIdentStart c
      · simp [hc, Except.isOk, Except.toBool]
      · simp [hc, Except.isOk, Except.toBool]
  · rw [mkProduct, product_regex_match_head]
    decide
  · decide

theorem C2_product_validation_witness :
    (mkProduct (bytes "a") (bytes "b") (bytes "c")).isOk = true :=
  (C2_product_validation.1 (bytes "a") (bytes "b") (bytes "c")).trans (by decide)

/-- C3: for every include graph, a top-level resolver call with the empty
registry and fuel above the number of filesystem paths terminates (never
reports the fuel artefact), and any manifest it returns is duplicate-free,
with the final shared registry being exactly the reversal of the manifest
(so the registry is shared across the entire walk and records each path of
the first-discovery depth-first pre-order exactly once). -/
theorem C3_resolver_dedup :
    ∀ (fs : FS) (out_dir root : Bytes) (fuel : Nat),
      unseenCount fs [] < fuel →
      (transitively_included_ninja_files fs out_dir fuel root [] ≠
        .error .outOfFuel) ∧
      (∀ (m s2 : List Bytes),
        transitively_included_ninja_files fs out_dir fuel root [] = .ok (m, s2) →
        m.Nodup ∧ s2 = m.reverse) := by
  intro fs out_dir root fuel hfuel
  constructor
  · rw [transitively_included_ninja_files]
    exact tiWith_no_fuel _ fs out_dir find_no_fuel_err fuel root [] (by simp) hfuel
  · intro m s2 h
    rw [transitively_included_ninja_files] at h
    have hseen := tiWith_seen _ fs out_dir fuel root [] m s2 h
    have hnd : s2.Nodup :=
      tiWith_nodup _ fs out_dir fuel root [] m s2 h List.nodup_nil (by simp)
    rw [List.append_nil] at hseen
    refine ⟨?_, hseen⟩
    rw [hseen] at hnd
    exact List.nodup_reverse.mp hnd

theorem C3_resolver_dedup_witness :
    unseenCount diamondFS [] < 10 ∧
    transitively_included_ninja_files diamondFS (bytes "o") 10 (bytes "o/r") [] ≠
      .error .outOfFuel := by
  have h : unseenCount diamondFS [] < 10 := by decide
  exact ⟨h, (C3_resolver_dedup diamondFS (bytes "o") (bytes "o/r") 10 h).1⟩

/-- C4: the hasher walk is total on every include graph admitting a rank
function strictly decreasing along include edges (for the finite graphs the
script reads this is exactly acyclicity) — with fuel above the root's rank
the fuel artefact never appears — while on the genuine two-file directive
cycle (`o/a` includes `b`, `o/b` includes `a`) the walk exhausts every
amount of fuel, i.e. does not terminate. -/
theorem C4_hasher_termination :
    (∀ (fs : FS) (out_dir : Bytes) (rk : Bytes → Nat),
       (∀ a b, IncludeEdge fs out_dir a b → rk b < rk a) →
       ∀ (fuel : Nat) (file hasher : Bytes), rk file < fuel →
         hash_ninja_file fs out_dir fuel file hasher ≠ .error .outOfFuel) ∧
    (∀ (fuel : Nat) (hasher : Bytes),
       hash_ninja_file cycleFS (bytes "o") fuel (bytes "o/a") hasher =
         .error .outOfFuel) :=
  ⟨hash_ninja_file_no_fuel, hash_cycle_diverges⟩

theorem C4_hasher_termination_witness :
    hash_ninja_file singleFS (bytes "o") 1 (bytes "o/a") [] ≠
      .error .outOfFuel ∧
    hash_ninja_file cycleFS (bytes "o") 5 (bytes "o/a") [] =
      .error .outOfFuel := by
  have hnoedge : ∀ a b, IncludeEdge singleFS (bytes "o") a b →
      (fun _ => (0 : Nat)) b < (fun _ => (0 : Nat)) a := by
    rintro a b ⟨c, subs, hf, hs, hb⟩
    rw [singleFS, fsFind] at hf
    by_cases ha : bytes "o/a" = a
    · rw [if_pos ha] at hf
      simp only [Option.some.injEq] at hf
      rw [← hf] at hs
      rw [show find_subninjas_and_includes (bytes "x") = .ok [] from by
        rw [find_eq_scanOutcome]; decide] at hs
      simp only [Except.ok.injEq] at hs
      rw [← hs] at hb
      simp at hb
    · rw [if_neg ha, fsFind] at hf
      simp at hf
  exact ⟨C4_hasher_termination.1 singleFS (bytes "o") (fun _ => 0) hnoedge 1
    (bytes "o/a") [] (by exact Nat.zero_lt_one), C4_hasher_termination.2 5 []⟩

/-- C1 counterexample: on the diamond graph the byte stream of the digest
the program actually computes and compares (resolver manifest fed to
`hash_files`) contains the bytes of `o/d` (byte 68, letter D) once, whereas
the stream of the `hash_ninja_file` walk contains them twice — so the
program's digest is not produced by the dedup-free walk. -/
theorem C1_counterexample :
    hash_ninja_file diamondFS (bytes "o") 10 (bytes "o/r") [] =
      .ok diamondWalkStream ∧
    programDigest diamondFS (bytes "o") 10 (bytes "o/r") =
      .ok diamondMainStream ∧
    diamondWalkStream.count 68 = 2 ∧
    diamondMainStream.count 68 = 1 ∧
    programDigest diamondFS (bytes "o") 10 (bytes "o/r") ≠
      .ok diamondWalkStream := by
  have hti : transitively_included_ninja_files diamondFS (bytes "o") 10
      (bytes "o/r") [] =
      .ok ([bytes "o/r", bytes "o/b", bytes "o/d", bytes "o/c"],
           [bytes "o/c", bytes "o/d", bytes "o/b", bytes "o/r"]) := by
    rw [ti_eq_tiEval]; decide
  have hpd : programDigest diamondFS (bytes "o") 10 (bytes "o/r") =
      .ok diamondMainStream := by
    rw [programDigest, hti]
    decide
  have hw : hash_ninja_file diamondFS (bytes "o") 10 (bytes "o/r") [] =
      .ok diamondWalkStream := by
    rw [hash_eq_hashEval]; decide
  refine ⟨hw, hpd, by decide, by decide, ?_⟩
  rw [hpd]
  decide

/-- C1 (amended): `hash_ninja_file` does perform the dedup-free depth-first
pre-order walk (feeding the current file's bytes before its children's, and
feeding the diamond's shared file twice), but it is dead code: the digest
the program computes and compares is `hash_files` over the Resolver's
deduplicated manifest, i.e. the concatenation of the manifest files'
contents, in which the diamond's shared file contributes once. -/
theorem C1_program_digest_dedup :
    (∀ (fs : FS) (out_dir root : Bytes) (fuel : Nat) (m s2 : List Bytes),
       transitively_included_ninja_files fs out_dir fuel root [] = .ok (m, s2) →
       programDigest fs out_dir fuel root = concatManifest fs m) ∧
    (∀ (fs : FS) (out_dir file hasher contents : Bytes) (fuel : Nat)
       (subs : List Bytes),
       fsFind fs file = some contents →
       find_subninjas_and_includes contents = .ok subs →
       hash_ninja_file fs out_dir (fuel + 1) file hasher =
         hashSubFiles (fun f h => hashWith find_subninjas_and_includes fs out_dir fuel f h)
           out_dir subs (hasher ++ contents)) ∧
    hash_ninja_file diamondFS (bytes "o") 10 (bytes "o/r") [] =
      .ok diamondWalkStream ∧
    diamondWalkStream.count 68 = 2 ∧
    programDigest diamondFS (bytes "o") 10 (bytes "o/r") =
      .ok diamondMainStream ∧
    diamondMainStream.count 68 = 1 := by
  refine ⟨?_, ?_, ?_, by decide, ?_, by decide⟩
  · intro fs out_dir root fuel m s2 h
    rw [programDigest, h]
    dsimp only
    rw [hash_files_eq_concat]
  · intro fs out_dir file hasher contents fuel subs hcont hscan
    rw [hash_ninja_file, hashWith, hcont]
    dsimp only
    rw [hscan]
  · rw [hash_eq_hashEval]; decide
  · have hti : transitively_included_ninja_files diamondFS (bytes "o") 10
        (bytes "o/r") [] =
        .ok ([bytes "o/r", bytes "o/b", bytes "o/d", bytes "o/c"],
             [bytes "o/c", bytes "o/d", bytes "o/b", bytes "o/r"]) := by
      rw [ti_eq_tiEval]; decide
    rw [programDigest, hti]
    decide

theorem C1_program_digest_dedup_witness :
    transitively_included_ninja_files diamondFS (bytes "o") 10 (bytes "o/r") [] =
      .ok ([bytes "o/r", bytes "o/b", bytes "o/d", bytes "o/c"],
           [bytes "o/c", bytes "o/d", bytes "o/b", bytes "o/r"]) ∧
    programDigest diamondFS (bytes "o") 10 (bytes "o/r") =
      concatManifest diamondFS [bytes "o/r", bytes "o/b", bytes "o/d", bytes "o/c"] := by
  have hti : transitively_included_ninja_files diamondFS (bytes "o") 10
      (bytes "o/r") [] =
      .ok ([bytes "o/r", bytes "o/b", bytes "o/d", bytes "o/c"],
           [bytes "o/c", bytes "o/d", bytes "o/b", bytes "o/r"]) := by
    rw [ti_eq_tiEval]; decide
  exact ⟨hti, C1_program_digest_dedup.1 _ _ _ _ _ _ hti⟩

/-- The product triple hard-coded in `main` constructs successfully. -/
theorem mkProduct_concrete :
    mkProduct (bytes "aosp_cf_x86_64_phone") (bytes "trunk_staging")
        (bytes "userdebug") =
      .ok ⟨bytes "aosp_cf_x86_64_phone", bytes "trunk_staging",
        bytes "userdebug"⟩ := by
  rw [mkProduct, product_regex_match_head]
  decide

/-- C7: the orchestrator records both concurrently launched builds before
branching and consumes both outcomes; if the first build failed it prints
that build's log to the error stream and exits nonzero, likewise for the
second build when only it failed, and in either failure case no resolution,
archive-packaging or hashing event occurs. -/
theorem C7_build_failure_gate :
    ∀ (fs : FS) (outRoot : Bytes) (fuel : Nat) (b1 b2 : BuildOutcome),
      (b1.success = false →
        mainModel fs outRoot fuel b1 b2 =
          ([.runBuild 1, .runBuild 2, .stderrLog b1.log,
            .exitFatal buildFailedMsg], 1)) ∧
      (b1.success = true → b2.success = false →
        mainModel fs outRoot fuel b1 b2 =
          ([.runBuild 1, .runBuild 2, .stderrLog b2.log,
            .exitFatal buildFailedMsg], 1)) ∧
      (b1.success = false ∨ b2.success = false →
        (mainModel fs outRoot fuel b1 b2).2 ≠ 0 ∧
        (∀ t, MainEvent.resolveTree t ∉ (mainModel fs outRoot fuel b1 b2).1) ∧
        (∀ zn fls, MainEvent.distArchive zn fls ∉ (mainModel fs outRoot fuel b1 b2).1) ∧
        (∀ t, MainEvent.hashTree t ∉ (mainModel fs outRoot fuel b1 b2).1)) := by
  intro fs outRoot fuel b1 b2
  have hfail1 : b1.success = false →
      mainModel fs outRoot fuel b1 b2 =
        ([.runBuild 1, .runBuild 2, .stderrLog b1.log,
          .exitFatal buildFailedMsg], 1) := by
    intro h1
    simp [mainModel, h1]
  have hfail2 : b1.success = true → b2.success = false →
      mainModel fs outRoot fuel b1 b2 =
        ([.runBuild 1, .runBuild 2, .stderrLog b2.log,
          .exitFatal buildFailedMsg], 1) := by
    intro h1 h2
    simp [mainModel, h1, h2]
  refine ⟨hfail1, hfail2, ?_⟩
  intro hor
  have htrace : mainModel fs outRoot fuel b1 b2 =
      ([.runBuild 1, .runBuild 2, .stderrLog b1.log, .exitFatal buildFailedMsg], 1) ∨
      mainModel fs outRoot fuel b1 b2 =
      ([.runBuild 1, .runBuild 2, .stderrLog b2.log, .exitFatal buildFailedMsg], 1) := by
    cases hb1 : b1.success with
    | false => exact Or.inl (hfail1 hb1)
    | true =>
      rcases hor with h1 | h2
      · rw [hb1] at h1; cases h1
      · exact Or.inr (hfail2 hb1 h2)
  rcases htrace with h | h <;> rw [h] <;>
    exact ⟨by simp, by intro t; simp, by intro zn fls; simp, by intro t; simp⟩

theorem C7_build_failure_gate_witness :
    mainModel [] (bytes "o") 1 ⟨false, bytes "log1"⟩ ⟨true, []⟩ =
      ([.runBuild 1, .runBuild 2, .stderrLog (bytes "log1"),
        .exitFatal buildFailedMsg], 1) :=
  (C7_build_failure_gate [] (bytes "o") 1 ⟨false, bytes "log1"⟩ ⟨true, []⟩).1 rfl

/-- C8: once both builds succeed and both resolutions return, the trace
starts with the two builds, the two resolutions and then both archive
writes — before any hashing or comparison event, which all sit in the
remaining trace — regardless of whether the digests later match. -/
theorem C8_archives_before_compare :
    ∀ (fs : FS) (outRoot : Bytes) (fuel : Nat) (b1 b2 : BuildOutcome)
      (m1 s1 m2 s2 : List Bytes),
      b1.success = true → b2.success = true →
      transitively_included_ninja_files fs (out_dir1 outRoot) fuel
        (rootNinja (bytes "aosp_cf_x86_64_phone") (out_dir1 outRoot)) [] =
        .ok (m1, s1) →
      transitively_included_ninja_files fs (out_dir2 outRoot) fuel
        (rootNinja (bytes "aosp_cf_x86_64_phone") (out_dir2 outRoot)) [] =
        .ok (m2, s2) →
      ∃ rest, (mainModel fs outRoot fuel b1 b2).1 =
        [.runBuild 1, .runBuild 2, .resolveTree 1, .resolveTree 2,
         .distArchive zipName1 m1, .distArchive zipName2 m2] ++ rest ∧
        ∀ zn fls, MainEvent.distArchive zn fls ∉ rest := by
  intro fs outRoot fuel b1 b2 m1 s1 m2 s2 hb1 hb2 hti1 hti2
  cases hh1 : hash_files fs m1 with
  | error e =>
    refine ⟨[.hashTree 1, .crash], ?_, by intro zn fls; simp⟩
    simp [mainModel, hb1, hb2, mkProduct_concrete, hti1, hti2, hh1]
  | ok h1 =>
    cases hh2 : hash_files fs m2 with
    | error e =>
      refine ⟨[.hashTree 1, .hashTree 2, .crash], ?_, by intro zn fls; simp⟩
      simp [mainModel, hb1, hb2, mkProduct_concrete, hti1, hti2, hh1, hh2]
    | ok h2 =>
      by_cases heq : h1 = h2
      · refine ⟨[.hashTree 1, .hashTree 2, .stdoutMsg successMsg], ?_,
          by intro zn fls; simp⟩
        simp [mainModel, hb1, hb2, mkProduct_concrete, hti1, hti2, hh1, hh2, heq]
      · refine ⟨[.hashTree 1, .hashTree 2, .exitFatal mismatchMsg], ?_,
          by intro zn fls; simp⟩
        simp [mainModel, hb1, hb2, mkProduct_concrete, hti1, hti2, hh1, hh2, heq]

/-- C9 (amended): after both builds succeed and both trees resolve and
hash, the program exits 0 printing exactly one success confirmation iff the
two digests are equal; on differing digests it exits nonzero with the
mismatch message, which references the two archives only through the
contracted form `determinism_test_files_1/2.zip` (the full archive file
names do not appear verbatim, see the counterexample). -/
theorem C9_exit_codes :
    ∀ (fs : FS) (outRoot : Bytes) (fuel : Nat) (b1 b2 : BuildOutcome)
      (m1 s1 m2 s2 : List Bytes) (h1 h2 : Bytes),
      b1.success = true → b2.success = true →
      transitively_included_ninja_files fs (out_dir1 outRoot) fuel
        (rootNinja (bytes "aosp_cf_x86_64_phone") (out_dir1 outRoot)) [] =
        .ok (m1, s1) →
      transitively_included_ninja_files fs (out_dir2 outRoot) fuel
        (rootNinja (bytes "aosp_cf_x86_64_phone") (out_dir2 outRoot)) [] =
        .ok (m2, s2) →
      hash_files fs m1 = .ok h1 → hash_files fs m2 = .ok h2 →
      (h1 = h2 →
        mainModel fs outRoot fuel b1 b2 =
          ([.runBuild 1, .runBuild 2, .resolveTree 1, .resolveTree 2,
            .distArchive zipName1 m1, .distArchive zipName2 m2,
            .hashTree 1, .hashTree 2, .stdoutMsg successMsg], 0)) ∧
      (h1 ≠ h2 →
        mainModel fs outRoot fuel b1 b2 =
          ([.runBuild 1, .runBuild 2, .resolveTree 1, .resolveTree 2,
            .distArchive zipName1 m1, .distArchive zipName2 m2,
            .hashTree 1, .hashTree 2, .exitFatal mismatchMsg], 1) ∧
        containsSeg (bytes "determinism_test_files_1/2.zip") mismatchMsg = true) := by
  intro fs outRoot fuel b1 b2 m1 s1 m2 s2 h1 h2 hb1 hb2 hti1 hti2 hh1 hh2
  constructor
  · intro heq
    simp [mainModel, hb1, hb2, mkProduct_concrete, hti1, hti2, hh1, hh2, heq]
  · intro hne
    refine ⟨?_, by decide⟩
    simp [mainModel, hb1, hb2, mkProduct_concrete, hti1, hti2, hh1, hh2, hne]

theorem C9_exit_codes_witness :
    mainModel matchFS (bytes "o") 3 ⟨true, []⟩ ⟨true, []⟩ =
      ([.runBuild 1, .runBuild 2, .resolveTree 1, .resolveTree 2,
        .distArchive zipName1
          [rootNinja (bytes "aosp_cf_x86_64_phone") (out_dir1 (bytes "o"))],
        .distArchive zipName2
          [rootNinja (bytes "aosp_cf_x86_64_phone") (out_dir2 (bytes "o"))],
        .hashTree 1, .hashTree 2, .stdoutMsg successMsg], 0) := by
  have hti1 : transitively_included_ninja_files matchFS (out_dir1 (bytes "o")) 3
      (rootNinja (bytes "aosp_cf_x86_64_phone") (out_dir1 (bytes "o"))) [] =
      .ok ([rootNinja (bytes "aosp_cf_x86_64_phone") (out_dir1 (bytes "o"))],
           [rootNinja (bytes "aosp_cf_x86_64_phone") (out_dir1 (bytes "o"))]) := by
    rw [ti_eq_tiEval]; decide
  have hti2 : transitively_included_ninja_files matchFS (out_dir2 (bytes "o")) 3
      (rootNinja (bytes "aosp_cf_x86_64_phone") (out_dir2 (bytes "o"))) [] =
      .ok ([rootNinja (bytes "aosp_cf_x86_64_phone") (out_dir2 (bytes "o"))],
           [rootNinja (bytes "aosp_cf_x86_64_phone") (out_dir2 (bytes "o"))]) := by
    rw [ti_eq_tiEval]; decide
  exact (C9_exit_codes matchFS (bytes "o") 3 ⟨true, []⟩ ⟨true, []⟩ _ _ _ _
    (bytes "X") (bytes "X") rfl rfl hti1 hti2 (by decide) (by decide)).1 rfl

/-- C9 counterexample: on a concrete mismatching run the program does exit
nonzero with the mismatch message, but that message references neither of
the two distribution-directory archive names verbatim (it only contains the
contracted `determinism_test_files_1/2.zip`). -/
theorem C9_counterexample :
    (mainModel mismatchFS (bytes "o") 3 ⟨true, []⟩ ⟨true, []⟩).2 = 1 ∧
    (mainModel mismatchFS (bytes "o") 3 ⟨true, []⟩ ⟨true, []⟩).1.getLast? =
      some (.exitFatal mismatchMsg) ∧
    containsSeg zipName1 mismatchMsg = false ∧
    containsSeg zipName2 mismatchMsg = false := by
  have hti1 : transitively_included_ninja_files mismatchFS (out_dir1 (bytes "o")) 3
      (rootNinja (bytes "aosp_cf_x86_64_phone") (out_dir1 (bytes "o"))) [] =
      .ok ([rootNinja (bytes "aosp_cf_x86_64_phone") (out_dir1 (bytes "o"))],
           [rootNinja (bytes "aosp_cf_x86_64_phone") (out_dir1 (bytes "o"))]) := by
    rw [ti_eq_tiEval]; decide
  have hti2 : transitively_included_ninja_files mismatchFS (out_dir2 (bytes "o")) 3
      (rootNinja (bytes "aosp_cf_x86_64_phone") (out_dir2 (bytes "o"))) [] =
      .ok ([rootNinja (bytes "aosp_cf_x86_64_phone") (out_dir2 (bytes "o"))],
           [rootNinja (bytes "aosp_cf_x86_64_phone") (out_dir2 (bytes "o"))]) := by
    rw [ti_eq_tiEval]; decide
  have hmain : mainModel mismatchFS (bytes "o") 3 ⟨true, []⟩ ⟨true, []⟩ =
      ([.runBuild 1, .runBuild 2, .resolveTree 1, .resolveTree 2,
        .distArchive zipName1
          [rootNinja (bytes "aosp_cf_x86_64_phone") (out_dir1 (bytes "o"))],
        .distArchive zipName2
          [rootNinja (bytes "aosp_cf_x86_64_phone") (out_dir2 (bytes "o"))],
        .hashTree 1, .hashTree 2, .exitFatal mismatchMsg], 1) := by
    simp [mainModel, mkProduct_concrete, hti1, hti2,
      show hash_files mismatchFS
        [rootNinja (bytes "aosp_cf_x86_64_phone") (out_dir1 (bytes "o"))] =
        .ok (bytes "X") from by decide,
      show hash_files mismatchFS
        [rootNinja (bytes "aosp_cf_x86_64_phone") (out_dir2 (bytes "o"))] =
        .ok (bytes "Y") from by decide,
      show ¬ bytes "X" = bytes "Y" from by decide]
  rw [hmain]
  exact ⟨rfl, by decide, by decide, by decide⟩

theorem C8_archives_before_compare_witness :
    ∃ rest, (mainModel matchFS (bytes "o") 3 ⟨true, []⟩ ⟨true, []⟩).1 =
      [.runBuild 1, .runBuild 2, .resolveTree 1, .resolveTree 2,
       .distArchive zipName1
         [rootNinja (bytes "aosp_cf_x86_64_phone") (out_dir1 (bytes "o"))],
       .distArchive zipName2
         [rootNinja (bytes "aosp_cf_x86_64_phone") (out_dir2 (bytes "o"))]] ++ rest ∧
      ∀ zn fls, MainEvent.distArchive zn fls ∉ rest := by
  have hti1 : transitively_included_ninja_files matchFS (out_dir1 (bytes "o")) 3
      (rootNinja (bytes "aosp_cf_x86_64_phone") (out_dir1 (bytes "o"))) [] =
      .ok ([rootNinja (bytes "aosp_cf_x86_64_phone") (out_dir1 (bytes "o"))],
           [rootNinja (bytes "aosp_cf_x86_64_phone") (out_dir1 (bytes "o"))]) := by
    rw [ti_eq_tiEval]; decide
  have hti2 : transitively_included_ninja_files matchFS (out_dir2 (bytes "o")) 3
      (rootNinja (bytes "aosp_cf_x86_64_phone") (out_dir2 (bytes "o"))) [] =
      .ok ([rootNinja (bytes "aosp_cf_x86_64_phone") (out_dir2 (bytes "o"))],
           [rootNinja (bytes "aosp_cf_x86_64_phone") (out_dir2 (bytes "o"))]) := by
    rw [ti_eq_tiEval]; decide
  exact C8_archives_before_compare matchFS (bytes "o") 3 ⟨true, []⟩ ⟨true, []⟩
    _ _ _ _ rfl rfl hti1 hti2

